import Mathlib

/-!
# Verification of sgkit's windowing module (`sgkit/window.py`)

A shallow embedding of the windowed-statistic engine: window boundary
generation (`_get_windows`), mapping of global window boundaries onto a
chunked layout (`_sizes_to_start_offsets`, `_get_chunked_windows`), the
halo-depth computation and last-two-chunk rebalancing performed by
`window_statistic`, the `moving_statistic` chunk-size precondition check,
and the block-local reducer `blockwise_moving_stat`.

NumPy integer arrays are modelled as `List Nat` (all quantities involved —
chunk lengths, window boundaries, offsets — are non-negative in the claimed
domains).  Operations that raise in Python (`np.max` of an empty array,
`np.min` of an empty array, out-of-range negative indexing) are modelled
with `Option`/`Except`: `none`/`.error` marks a raised exception.
-/

namespace SgkitWindow

/-- `np.arange(start, stop, step)` for naturals with `step ≥ 1`:
the values `start + i*step` strictly below `stop`. -/
def arange (start stop step : Nat) : List Nat :=
  (List.range ((stop - start + step - 1) / step)).map (fun i => start + i * step)

/-- `_get_windows(start, stop, size, step)`:
`window_starts = np.arange(start, stop, step)`,
`window_stops = np.clip(window_starts + size, start, stop)`
(NumPy clip is lower bound first, then upper bound). -/
def _get_windows (start stop size step : Nat) : List Nat × List Nat :=
  let window_starts := arange start stop step
  let window_stops := window_starts.map (fun w => min (max (w + size) start) stop)
  (window_starts, window_stops)

/-- `_sizes_to_start_offsets(sizes)`: `np.cumsum(np.insert(sizes, 0, 0))`,
i.e. the prefix sums `[0, s₀, s₀+s₁, …, total]` (length `sizes.length + 1`). -/
def _sizes_to_start_offsets (sizes : List Nat) : List Nat :=
  (List.range (sizes.length + 1)).map (fun i => (sizes.take i).sum)

/-- `np.searchsorted(l, w, side="right")` on a sorted array: the number of
elements `≤ w`. -/
def searchsortedRight (l : List Nat) (w : Nat) : Nat :=
  l.countP (· ≤ w)

/-- The chunk number assigned to window start `w`:
`np.searchsorted(chunk_starts, w, side="right") - 1`. -/
def chunkNumberOf (chunk_starts : List Nat) (w : Nat) : Nat :=
  searchsortedRight chunk_starts w - 1

/-- `np.unique(l)`: the distinct values of `l` in increasing order. -/
def uniqueValues (l : List Nat) : List Nat :=
  l.toFinset.sort (· ≤ ·)

/-- The counts returned by `np.unique(l, return_counts=True)`: for each
distinct value in increasing order, its number of occurrences in `l`. -/
def uniqueCounts (l : List Nat) : List Nat :=
  (uniqueValues l).map (fun v => l.count v)

/-- `_get_chunked_windows(chunks, length, window_starts, window_stops)`:
relative window starts (window start minus the containing chunk's start
offset) and the per-chunk window counts.  The `length` and `window_stops`
arguments are unused by the Python body and kept for signature fidelity. -/
def _get_chunked_windows (chunks : List Nat) (_length : Nat)
    (window_starts : List Nat) (_window_stops : List Nat) : List Nat × List Nat :=
  let chunk_starts := _sizes_to_start_offsets chunks
  let chunk_numbers := window_starts.map (chunkNumberOf chunk_starts)
  let rel_window_starts :=
    window_starts.map (fun w => w - chunk_starts.getD (chunkNumberOf chunk_starts w) 0)
  let windows_per_chunk := uniqueCounts chunk_numbers
  (rel_window_starts, windows_per_chunk)

/-- `window_lengths = window_stops - window_starts` (elementwise). -/
def windowLengths (window_starts window_stops : List Nat) : List Nat :=
  List.zipWith (fun stop start => stop - start) window_stops window_starts

/-- `depth = np.max(window_stops - window_starts)`.  `np.max` of an empty
array raises `ValueError`; this is modelled by `List.maximum` returning
`none` exactly on the empty list. -/
def computeDepth (window_starts window_stops : List Nat) : Option Nat :=
  (windowLengths window_starts window_stops).maximum

/-- The chunk rebalancing step of `window_statistic`: if `depth` exceeds the
last chunk's length, replace the layout by
`chunk0[:-2] + [chunk0[-2] + chunk0[-1]]`.  Python raises `IndexError` on
`chunk0[-1]` (empty tuple) or `chunk0[-2]` (singleton tuple); those cases are
`none`. -/
def rebalanceChunks (chunks : List Nat) (depth : Nat) : Option (List Nat) :=
  if chunks.length = 0 then none
  else if chunks.getD (chunks.length - 1) 0 < depth then
    if chunks.length < 2 then none
    else some (chunks.take (chunks.length - 2) ++
      [chunks.getD (chunks.length - 2) 0 + chunks.getD (chunks.length - 1) 0])
  else some chunks

/-- The planning phase of `window_statistic`: compute the depth (raising on
an empty window set), rebalance the chunks, re-run the chunk mapping against
the new layout, and offset the relative starts by `depth` for `map_overlap`.
Returns `(new chunks, rel_window_starts + depth, rel_window_stops,
windows_per_chunk)`; `none` models a raised exception. -/
def windowStatisticPlan (chunks : List Nat) (window_starts window_stops : List Nat) :
    Option (List Nat × List Nat × List Nat × List Nat) :=
  match computeDepth window_starts window_stops with
  | none => none
  | some depth =>
    match rebalanceChunks chunks depth with
    | none => none
    | some newChunks =>
      let mapped := _get_chunked_windows newChunks chunks.sum window_starts window_stops
      let rel_window_starts := mapped.1.map (· + depth)
      let rel_window_stops :=
        List.zipWith (· + ·) rel_window_starts (windowLengths window_starts window_stops)
      some (newChunks, rel_window_starts, rel_window_stops, mapped.2)

/-- The block-local reducer `blockwise_moving_stat` inside `window_statistic`.
`blockInfo = none` models `block_info is None or len(block_info) == 0` (the
coordination-only probe call); `some c` carries the chunk number from
`block_info[0]["chunk-location"][0]`.  Python slices `a[s:t]` are
`(a.drop s).take (t - s)`. -/
def blockwise_moving_stat {α β : Type} (statistic : List α → β)
    (chunk_offsets rel_window_starts rel_window_stops : List Nat)
    (x : List α) (blockInfo : Option Nat) : List β :=
  match blockInfo with
  | none => []
  | some chunk_number =>
    let chunk_offset_start := chunk_offsets.getD chunk_number 0
    let chunk_offset_stop := chunk_offsets.getD (chunk_number + 1) 0
    let chunk_window_starts :=
      (rel_window_starts.drop chunk_offset_start).take (chunk_offset_stop - chunk_offset_start)
    let chunk_window_stops :=
      (rel_window_stops.drop chunk_offset_start).take (chunk_offset_stop - chunk_offset_start)
    (chunk_window_starts.zip chunk_window_stops).map
      (fun p => statistic ((x.drop p.1).take (p.2 - p.1)))

/-- The `moving_statistic` front end, up to its delegation to
`window_statistic`: validate the minimum chunk size (`np.min` over all chunks
but the last when there are several, over all chunks otherwise), raising
`ValueError` when it is smaller than `size`, then derive the windows over
`[0, length)`.  `Except.ok` carries the windows handed to `window_statistic`;
`Except.error` models the raised exception. -/
def moving_statistic (length : Nat) (chunks : List Nat) (size step : Nat) :
    Except String (List Nat × List Nat) :=
  match (if 1 < chunks.length then chunks.dropLast else chunks).min? with
  | none => Except.error "zero-size array to reduction operation minimum"
  | some min_chunksize =>
    if min_chunksize < size then
      Except.error "Minimum chunk size must not be smaller than size."
    else
      Except.ok (_get_windows 0 length size step)

/-! ## Helper lemmas -/

theorem arange_length (start stop step : Nat) :
    (arange start stop step).length = (stop - start + step - 1) / step := by
  simp [arange]

theorem arange_getD (start stop step i : Nat) (h : i < (arange start stop step).length) :
    (arange start stop step).getD i 0 = start + i * step := by
  rw [List.getD_eq_getElem _ _ h]
  simp [arange]

theorem lt_ceilDiv_iff (A step i : Nat) (hstep : 0 < step) :
    i < (A + step - 1) / step ↔ i * step < A := by
  rw [Nat.lt_iff_add_one_le, Nat.le_div_iff_mul_le hstep]
  have h : (i + 1) * step = i * step + step := by ring
  rw [h]
  generalize i * step = p
  omega

theorem get_windows_starts_length (start stop size step : Nat) :
    (_get_windows start stop size step).1.length = (stop - start + step - 1) / step := by
  simp [_get_windows, arange_length]

theorem get_windows_stops_getD (start stop size step i : Nat)
    (h : i < (_get_windows start stop size step).1.length) :
    (_get_windows start stop size step).2.getD i 0 =
      min (max ((_get_windows start stop size step).1.getD i 0 + size) start) stop := by
  have h1 : i < (arange start stop step).length := h
  simp only [_get_windows]
  rw [List.getD_eq_getElem _ _ (by simpa using h1), List.getD_eq_getElem _ _ h1]
  simp

/-! ## Claim C3 -/

/-- Claim C3: for `0 ≤ start < stop`, `size ≥ 1`, `step ≥ 1`, `_get_windows`
returns `starts` with `starts[i] = start + i*step` for exactly those `i` with
`starts[i] < stop`, and `stops[i] = min(starts[i] + size, stop)` which is also
`≥ start`; the two sequences have equal length and are monotonically
non-decreasing. -/
theorem C3_get_windows_spec (start stop size step : Nat)
    (hss : start < stop) (hsize : 1 ≤ size) (hstep : 1 ≤ step) :
    (_get_windows start stop size step).1.length =
        (_get_windows start stop size step).2.length ∧
    (∀ i, i < (_get_windows start stop size step).1.length →
        (_get_windows start stop size step).1.getD i 0 = start + i * step ∧
        (_get_windows start stop size step).1.getD i 0 < stop) ∧
    (∀ i, start + i * step < stop → i < (_get_windows start stop size step).1.length) ∧
    (∀ i, i < (_get_windows start stop size step).1.length →
        (_get_windows start stop size step).2.getD i 0 =
          min ((_get_windows start stop size step).1.getD i 0 + size) stop ∧
        start ≤ (_get_windows start stop size step).2.getD i 0) ∧
    (∀ i j, i ≤ j → j < (_get_windows start stop size step).1.length →
        (_get_windows start stop size step).1.getD i 0 ≤
          (_get_windows start stop size step).1.getD j 0 ∧
        (_get_windows start stop size step).2.getD i 0 ≤
          (_get_windows start stop size step).2.getD j 0) := by
  have hlen : (_get_windows start stop size step).1.length =
      (stop - start + step - 1) / step := get_windows_starts_length ..
  have hstarts : ∀ i, i < (_get_windows start stop size step).1.length →
      (_get_windows start stop size step).1.getD i 0 = start + i * step := by
    intro i hi
    exact arange_getD start stop step i hi
  have hmem : ∀ i, i < (_get_windows start stop size step).1.length ↔
      start + i * step < stop := by
    intro i
    rw [hlen, lt_ceilDiv_iff _ _ _ hstep]
    omega
  refine ⟨by simp [_get_windows], ?_, ?_, ?_, ?_⟩
  · intro i hi
    refine ⟨hstarts i hi, ?_⟩
    rw [hstarts i hi]
    exact (hmem i).mp hi
  · intro i hi
    exact (hmem i).mpr hi
  · intro i hi
    have h1 := get_windows_stops_getD start stop size step i hi
    have h2 := hstarts i hi
    constructor
    · rw [h1, h2]
      have : max (start + i * step + size) start = start + i * step + size := by omega
      rw [this]
    · rw [h1]
      omega
  · intro i j hij hj
    have hi : i < (_get_windows start stop size step).1.length := lt_of_le_of_lt
      (by omega : i ≤ j) hj
    constructor
    · rw [hstarts i hi, hstarts j hj]
      have : i * step ≤ j * step := Nat.mul_le_mul_right step hij
      omega
    · rw [get_windows_stops_getD start stop size step i hi,
        get_windows_stops_getD start stop size step j hj,
        hstarts i hi, hstarts j hj]
      have : i * step ≤ j * step := Nat.mul_le_mul_right step hij
      omega

/-- Witness for C3 at `start=0, stop=10, size=3, step=3`. -/
theorem C3_get_windows_spec_witness :
    (0 : Nat) < 10 ∧ (1 : Nat) ≤ 3 ∧
    (_get_windows 0 10 3 3).1.getD 3 0 = 0 + 3 * 3 ∧
    (_get_windows 0 10 3 3).2.getD 3 0 = min ((_get_windows 0 10 3 3).1.getD 3 0 + 3) 10 := by
  have h := C3_get_windows_spec 0 10 3 3 (by decide) (by decide) (by decide)
  have h3 : 3 < (_get_windows 0 10 3 3).1.length := by decide
  exact ⟨by decide, by decide, (h.2.1 3 h3).1, (h.2.2.2.1 3 h3).1⟩

/-! ## Claim C4 -/

/-- Counterexample to C4 as stated: with `L = 2`, `S = 1`, `T = 2` the window
set is non-empty but the last window's stop is `1 ≠ L`. -/
theorem C4_counterexample :
    (_get_windows 0 2 1 2).1 ≠ [] ∧
    (_get_windows 0 2 1 2).2.getLast? ≠ some 2 := by decide

/-- Claim C4 (amended): for `L ≥ 1`, `S ≥ 1`, `T ≥ 1`, every window produced
by `_get_windows(0, L, S, T)` satisfies `0 ≤ start < stop ≤ L` and
`stop − start ≤ S`; and when additionally `S ≥ T` the last window's stop
equals `L`. -/
theorem C4_window_bounds (L S T : Nat) (hL : 1 ≤ L) (hS : 1 ≤ S) (hT : 1 ≤ T) :
    (∀ i, i < (_get_windows 0 L S T).1.length →
        (_get_windows 0 L S T).1.getD i 0 < (_get_windows 0 L S T).2.getD i 0 ∧
        (_get_windows 0 L S T).2.getD i 0 ≤ L ∧
        (_get_windows 0 L S T).2.getD i 0 - (_get_windows 0 L S T).1.getD i 0 ≤ S) ∧
    (T ≤ S → (_get_windows 0 L S T).2.getLast? = some L) := by
  obtain ⟨hlen, hstarts, hcompl, hstops, _⟩ := C3_get_windows_spec 0 L S T hL hS hT
  constructor
  · intro i hi
    obtain ⟨hs1, hs2⟩ := hstarts i hi
    obtain ⟨ht1, _⟩ := hstops i hi
    rw [ht1, hs1] at *
    omega
  · intro hTS
    have hne : 0 < (_get_windows 0 L S T).1.length := hcompl 0 (by omega)
    set n := (_get_windows 0 L S T).1.length with hn
    have h2len : (_get_windows 0 L S T).2.length = n := hlen.symm
    have hlast : (_get_windows 0 L S T).2.getLast? =
        some ((_get_windows 0 L S T).2.getD (n - 1) 0) := by
      rw [List.getLast?_eq_getElem?, h2len,
        List.getElem?_eq_getElem (by omega : n - 1 < (_get_windows 0 L S T).2.length),
        List.getD_eq_getElem _ _ (by omega : n - 1 < (_get_windows 0 L S T).2.length)]
    rw [hlast]
    obtain ⟨ht1, _⟩ := hstops (n - 1) (by omega)
    obtain ⟨hs1, hs2⟩ := hstarts (n - 1) (by omega)
    have hbig : L ≤ 0 + (n - 1) * T + S := by
      by_contra hcon
      push_neg at hcon
      have : 0 + ((n - 1) + 1) * T < L := by
        have : ((n - 1) + 1) * T = (n - 1) * T + T := by ring
        omega
      have := hcompl ((n - 1) + 1) this
      omega
    rw [ht1, hs1]
    congr 1
    omega

/-- Witness for C4 (amended) at `L = 10, S = 3, T = 3`. -/
theorem C4_window_bounds_witness :
    (1 : Nat) ≤ 10 ∧ (1 : Nat) ≤ 3 ∧
    (_get_windows 0 10 3 3).2.getD 3 0 ≤ 10 ∧
    (_get_windows 0 10 3 3).2.getLast? = some 10 := by
  have h := C4_window_bounds 10 3 3 (by decide) (by decide) (by decide)
  exact ⟨by decide, by decide, (h.1 3 (by decide)).2.1, h.2 (by decide)⟩

/-! ## Offsets and searchsorted lemmas -/

theorem sizes_to_start_offsets_length (sizes : List Nat) :
    (_sizes_to_start_offsets sizes).length = sizes.length + 1 := by
  simp [_sizes_to_start_offsets]

theorem sizes_to_start_offsets_getD (sizes : List Nat) (i : Nat) (h : i < sizes.length + 1) :
    (_sizes_to_start_offsets sizes).getD i 0 = (sizes.take i).sum := by
  rw [List.getD_eq_getElem _ _ (by simpa [sizes_to_start_offsets_length] using h)]
  simp [_sizes_to_start_offsets]

theorem take_sum_le (l : List Nat) (i j : Nat) (hij : i ≤ j) :
    (l.take i).sum ≤ (l.take j).sum := by
  have h : l.take j = l.take i ++ (l.drop i).take (j - i) := by
    rw [← List.take_add]
    congr 1
    omega
  rw [h, List.sum_append]
  omega

theorem sizes_to_start_offsets_sorted (sizes : List Nat) :
    List.Sorted (· ≤ ·) (_sizes_to_start_offsets sizes) := by
  apply List.pairwise_iff_getElem.mpr
  intro i j hi hj hij
  simp only [_sizes_to_start_offsets, List.getElem_map, List.getElem_range]
  exact take_sum_le _ _ _ (by omega)

/-- On a `≤`-sorted list, the elements `≤ w` form a prefix, so position `i`
holds an element `≤ w` exactly when `i` is below the right-biased insertion
point. -/
theorem getD_le_iff_lt_searchsorted (l : List Nat) (hl : List.Sorted (· ≤ ·) l) (w : Nat) :
    ∀ i, i < l.length → (l.getD i 0 ≤ w ↔ i < searchsortedRight l w) := by
  induction l with
  | nil => intro i hi; simp at hi
  | cons a t ih =>
    rw [List.sorted_cons] at hl
    have hcp_pos : a ≤ w → searchsortedRight (a :: t) w = searchsortedRight t w + 1 := by
      intro haw
      simp [searchsortedRight, List.countP_cons, haw]
    have hcp_neg : ¬ a ≤ w → searchsortedRight (a :: t) w = searchsortedRight t w := by
      intro haw
      simp [searchsortedRight, List.countP_cons, haw]
    have ht0 : ¬ a ≤ w → searchsortedRight t w = 0 := by
      intro haw
      simp only [searchsortedRight]
      rw [List.countP_eq_zero]
      intro x hx
      have := hl.1 x hx
      simp only [decide_eq_true_eq]
      omega
    intro i hi
    cases i with
    | zero =>
      rw [List.getD_cons_zero]
      by_cases haw : a ≤ w
      · rw [hcp_pos haw]
        exact ⟨fun _ => by omega, fun _ => haw⟩
      · rw [hcp_neg haw, ht0 haw]
        exact ⟨fun h2 => absurd h2 haw, fun h2 => by omega⟩
    | succ i =>
      have hi2 : i < t.length := by simpa using hi
      rw [List.getD_cons_succ, ih hl.2 i hi2]
      by_cases haw : a ≤ w
      · rw [hcp_pos haw]
        omega
      · rw [hcp_neg haw, ht0 haw]
        omega

/-! ## Claim C1 -/

/-- Claim C1: for positive chunk lengths and window starts in `[0, length)`,
`_get_chunked_windows` assigns each window the greatest chunk index whose
cumulative start offset is `≤` the window start, and the relative start is
the window start minus that chunk's start offset. -/
theorem C1_chunked_windows_assignment (chunks window_starts window_stops : List Nat)
    (len : Nat) (hpos : ∀ c ∈ chunks, 0 < c)
    (hw : ∀ w ∈ window_starts, w < chunks.sum) :
    ∀ i, i < window_starts.length →
      chunkNumberOf (_sizes_to_start_offsets chunks) (window_starts.getD i 0) <
        chunks.length ∧
      (_sizes_to_start_offsets chunks).getD
          (chunkNumberOf (_sizes_to_start_offsets chunks) (window_starts.getD i 0)) 0 ≤
        window_starts.getD i 0 ∧
      (∀ j, j < (_sizes_to_start_offsets chunks).length →
        (_sizes_to_start_offsets chunks).getD j 0 ≤ window_starts.getD i 0 →
        j ≤ chunkNumberOf (_sizes_to_start_offsets chunks) (window_starts.getD i 0)) ∧
      (_get_chunked_windows chunks len window_starts window_stops).1.getD i 0 =
        window_starts.getD i 0 -
          (_sizes_to_start_offsets chunks).getD
            (chunkNumberOf (_sizes_to_start_offsets chunks) (window_starts.getD i 0)) 0 := by
  intro i hi
  have hsorted : List.Sorted (· ≤ ·) (_sizes_to_start_offsets chunks) :=
    sizes_to_start_offsets_sorted chunks
  have hcslen : (_sizes_to_start_offsets chunks).length = chunks.length + 1 :=
    sizes_to_start_offsets_length chunks
  have hiff := getD_le_iff_lt_searchsorted (_sizes_to_start_offsets chunks) hsorted
    (window_starts.getD i 0)
  have h0 : (_sizes_to_start_offsets chunks).getD 0 0 = 0 := by
    rw [sizes_to_start_offsets_getD chunks 0 (by omega)]
    simp
  have hpos0 : 0 < searchsortedRight (_sizes_to_start_offsets chunks)
      (window_starts.getD i 0) := by
    apply (hiff 0 (by omega)).mp
    rw [h0]
    exact Nat.zero_le _
  have hwmem : window_starts.getD i 0 ∈ window_starts := by
    rw [List.getD_eq_getElem _ _ hi]
    exact List.getElem_mem _
  have hwlt : window_starts.getD i 0 < chunks.sum := hw _ hwmem
  have hlastD : (_sizes_to_start_offsets chunks).getD chunks.length 0 = chunks.sum := by
    rw [sizes_to_start_offsets_getD chunks chunks.length (by omega), List.take_length]
  have hub : searchsortedRight (_sizes_to_start_offsets chunks)
      (window_starts.getD i 0) ≤ chunks.length := by
    by_contra hcon
    push_neg at hcon
    have h2 := (hiff chunks.length (by omega)).mpr (by omega)
    rw [hlastD] at h2
    omega
  have hkval : chunkNumberOf (_sizes_to_start_offsets chunks) (window_starts.getD i 0) =
      searchsortedRight (_sizes_to_start_offsets chunks) (window_starts.getD i 0) - 1 := rfl
  refine ⟨by omega, ?_, ?_, ?_⟩
  · exact (hiff _ (by omega)).mpr (by omega)
  · intro j hj hle
    have := (hiff j hj).mp hle
    omega
  · show (window_starts.map (fun w => w -
        (_sizes_to_start_offsets chunks).getD
          (chunkNumberOf (_sizes_to_start_offsets chunks) w) 0)).getD i 0 = _
    rw [List.getD_eq_getElem _ _ (by simpa using hi), List.getElem_map,
      List.getD_eq_getElem _ _ hi]

/-- Witness for C1: chunks `[4,3,3]`, window starts `[0,3,6,9]`; window 3
(start 9) lands in chunk 2 (offset 7) with relative start 2. -/
theorem C1_chunked_windows_assignment_witness :
    chunkNumberOf (_sizes_to_start_offsets [4,3,3]) ([0,3,6,9].getD 3 0) < 3 ∧
    (_get_chunked_windows [4,3,3] 10 [0,3,6,9] [3,6,9,10]).1.getD 3 0 =
      [0,3,6,9].getD 3 0 -
        (_sizes_to_start_offsets [4,3,3]).getD
          (chunkNumberOf (_sizes_to_start_offsets [4,3,3]) ([0,3,6,9].getD 3 0)) 0 := by
  have h := C1_chunked_windows_assignment [4,3,3] [0,3,6,9] [3,6,9,10] 10
    (by decide) (by decide) 3 (by decide)
  exact ⟨h.1, h.2.2.2⟩

/-! ## Claim C6 -/

theorem uniqueCounts_sum (l : List Nat) : (uniqueCounts l).sum = l.length := by
  unfold uniqueCounts uniqueValues
  have hperm : List.Perm ((l.toFinset.sort (· ≤ ·)).map (fun v => l.count v))
      (l.toFinset.toList.map (fun v => l.count v)) :=
    List.Perm.map _ (Finset.sort_perm_toList (· ≤ ·) l.toFinset)
  rw [hperm.sum_eq, Finset.sum_to_list]
  exact List.sum_toFinset_count_eq_length l

/-- Claim C6: the `windows_per_chunk` sequence of `_get_chunked_windows` has
one entry per chunk index that received at least one window (its distinct
values are exactly the occurring chunk indices), and its entries sum to the
total number of windows. -/
theorem C6_windows_per_chunk (chunks window_starts window_stops : List Nat) (len : Nat) :
    (_get_chunked_windows chunks len window_starts window_stops).2.sum =
      window_starts.length ∧
    (_get_chunked_windows chunks len window_starts window_stops).2.length =
      (window_starts.map (chunkNumberOf (_sizes_to_start_offsets chunks))).toFinset.card ∧
    (∀ c, c ∈ uniqueValues
        (window_starts.map (chunkNumberOf (_sizes_to_start_offsets chunks))) ↔
      c ∈ window_starts.map (chunkNumberOf (_sizes_to_start_offsets chunks))) ∧
    (∀ i, i < (_get_chunked_windows chunks len window_starts window_stops).2.length →
      0 < (_get_chunked_windows chunks len window_starts window_stops).2.getD i 0) := by
  refine ⟨?_, ?_, ?_, ?_⟩
  · show (uniqueCounts (window_starts.map
        (chunkNumberOf (_sizes_to_start_offsets chunks)))).sum = window_starts.length
    rw [uniqueCounts_sum, List.length_map]
  · show (uniqueCounts (window_starts.map
        (chunkNumberOf (_sizes_to_start_offsets chunks)))).length = _
    unfold uniqueCounts uniqueValues
    rw [List.length_map, Finset.length_sort]
  · intro c
    unfold uniqueValues
    rw [Finset.mem_sort, List.mem_toFinset]
  · intro i hi
    show 0 < (uniqueCounts (window_starts.map
        (chunkNumberOf (_sizes_to_start_offsets chunks)))).getD i 0
    have hi2 : i < (uniqueCounts (window_starts.map
        (chunkNumberOf (_sizes_to_start_offsets chunks)))).length := hi
    unfold uniqueCounts at hi2 ⊢
    rw [List.getD_eq_getElem _ _ hi2, List.getElem_map]
    apply List.count_pos_iff.mpr
    apply List.mem_toFinset.mp
    apply Finset.mem_sort (α := Nat) (· ≤ ·) |>.mp
    exact List.getElem_mem _

/-! ## Claim C2 -/

theorem windowLengths_length (window_starts window_stops : List Nat) :
    (windowLengths window_starts window_stops).length =
      min window_stops.length window_starts.length := by
  simp [windowLengths]

theorem windowLengths_getD (window_starts window_stops : List Nat) (i : Nat)
    (h : i < (windowLengths window_starts window_stops).length) :
    (windowLengths window_starts window_stops).getD i 0 =
      window_stops.getD i 0 - window_starts.getD i 0 := by
  have h2 := h
  rw [windowLengths_length] at h2
  rw [List.getD_eq_getElem _ _ h]
  simp only [windowLengths, List.getElem_zipWith]
  rw [List.getD_eq_getElem _ _ (by omega), List.getD_eq_getElem _ _ (by omega)]

/-- Claim C2: for a non-empty window set, `window_statistic` computes the
halo depth as the maximum window length, and exactly when that depth exceeds
the last chunk's length it merges the last two chunks into one of summed
length, leaving the earlier chunks unchanged. -/
theorem C2_depth_and_rebalance (window_starts window_stops chunks : List Nat)
    (hne : window_starts ≠ []) (hlen : window_starts.length = window_stops.length)
    (hchunks : 2 ≤ chunks.length) :
    ∃ d, computeDepth window_starts window_stops = some d ∧
      (∀ i, i < window_starts.length →
        window_stops.getD i 0 - window_starts.getD i 0 ≤ d) ∧
      (∃ i, i < window_starts.length ∧
        d = window_stops.getD i 0 - window_starts.getD i 0) ∧
      (chunks.getD (chunks.length - 1) 0 < d →
        rebalanceChunks chunks d =
          some (chunks.take (chunks.length - 2) ++
            [chunks.getD (chunks.length - 2) 0 + chunks.getD (chunks.length - 1) 0])) ∧
      (d ≤ chunks.getD (chunks.length - 1) 0 →
        rebalanceChunks chunks d = some chunks) := by
  have hwl : (windowLengths window_starts window_stops).length = window_starts.length := by
    rw [windowLengths_length]
    omega
  obtain ⟨d, hd⟩ : ∃ d, (windowLengths window_starts window_stops).maximum = some d := by
    cases hmax : (windowLengths window_starts window_stops).maximum with
    | bot =>
      exfalso
      apply hne
      have h0 := List.maximum_eq_none.mp hmax
      have h1 : window_starts.length = 0 := by
        rw [← hwl, h0]
        rfl
      exact List.length_eq_zero.mp h1
    | coe d => exact ⟨d, rfl⟩
  refine ⟨d, hd, ?_, ?_, ?_, ?_⟩
  · intro i hi
    have hmem : (windowLengths window_starts window_stops).getD i 0 ∈
        windowLengths window_starts window_stops := by
      rw [List.getD_eq_getElem _ _ (by omega)]
      exact List.getElem_mem _
    have hle := List.le_maximum_of_mem hmem hd
    rw [windowLengths_getD window_starts window_stops i (by omega)] at hle
    exact_mod_cast hle
  · have hmem := List.maximum_mem hd
    obtain ⟨i, hi, hval⟩ := List.mem_iff_getElem.mp hmem
    refine ⟨i, by omega, ?_⟩
    rw [← windowLengths_getD window_starts window_stops i (by omega),
      List.getD_eq_getElem _ _ (by omega), hval]
  · intro hlt
    simp only [rebalanceChunks]
    rw [if_neg (by omega : ¬ chunks.length = 0), if_pos hlt,
      if_neg (by omega : ¬ chunks.length < 2)]
  · intro hge
    simp only [rebalanceChunks]
    rw [if_neg (by omega : ¬ chunks.length = 0), if_neg (by omega)]

/-- Witness for C2: windows `(0,3),(3,6),(6,9),(9,10)` over chunks `[4,3,1]`;
the depth is `3`, which exceeds the last chunk's length `1`, so the last two
chunks are merged into `3 + 1`. -/
theorem C2_depth_and_rebalance_witness :
    rebalanceChunks [4,3,1] 3 =
      some ([4,3,1].take 1 ++ [[4,3,1].getD 1 0 + [4,3,1].getD 2 0]) := by
  obtain ⟨d, h1, _, _, h4, _⟩ := C2_depth_and_rebalance [0,3,6,9] [3,6,9,10] [4,3,1]
    (by decide) (by decide) (by decide)
  have hd : d = 3 := by
    have h3 : computeDepth [0,3,6,9] [3,6,9,10] = some 3 := by decide
    rw [h3] at h1
    exact (Option.some.inj h1).symm
  subst hd
  exact h4 (by decide)

/-! ## Claim C7 -/

/-- Counterexample to C7 as stated: chunks `[5,1,1]` with the single window
`[0,7)` (valid, since the total length is `7`) give depth `7`; one
application of the rebalancer yields `[5,2]`, a second yields `[7]`, so the
output is not a fixed point. -/
theorem C7_counterexample :
    computeDepth [0] [7] = some 7 ∧
    List.sum [5,1,1] = 7 ∧
    rebalanceChunks [5,1,1] 7 = some [5,2] ∧
    rebalanceChunks [5,2] 7 = some [7] ∧
    some [7] ≠ some [5,2] := by
  refine ⟨by decide, by decide, by decide, by decide, by decide⟩

/-- Claim C7 (amended): the rebalancing step is idempotent whenever the depth
does not exceed the sum of the last two chunk lengths (which `moving_statistic`'s
chunk-size precondition guarantees): applying the transformation to its own
output changes nothing. -/
theorem C7_rebalance_fixed_point (chunks : List Nat) (d : Nat)
    (h2 : 2 ≤ chunks.length)
    (hd : d ≤ chunks.getD (chunks.length - 2) 0 + chunks.getD (chunks.length - 1) 0) :
    (rebalanceChunks chunks d).bind (fun c => rebalanceChunks c d) =
      rebalanceChunks chunks d := by
  by_cases hlast : chunks.getD (chunks.length - 1) 0 < d
  · have hre : rebalanceChunks chunks d =
        some (chunks.take (chunks.length - 2) ++
          [chunks.getD (chunks.length - 2) 0 + chunks.getD (chunks.length - 1) 0]) := by
      simp only [rebalanceChunks]
      rw [if_neg (by omega : ¬ chunks.length = 0), if_pos hlast,
        if_neg (by omega : ¬ chunks.length < 2)]
    rw [hre, Option.some_bind]
    have htlen : (chunks.take (chunks.length - 2)).length = chunks.length - 2 := by
      rw [List.length_take]
      omega
    have hlen2 : (chunks.take (chunks.length - 2) ++
        [chunks.getD (chunks.length - 2) 0 + chunks.getD (chunks.length - 1) 0]).length =
        chunks.length - 1 := by
      rw [List.length_append, htlen]
      simp
      omega
    have hlast2 : (chunks.take (chunks.length - 2) ++
        [chunks.getD (chunks.length - 2) 0 + chunks.getD (chunks.length - 1) 0]).getD
          (chunks.length - 2) 0 =
        chunks.getD (chunks.length - 2) 0 + chunks.getD (chunks.length - 1) 0 := by
      rw [List.getD_append_right _ _ _ _ (by omega), htlen]
      simp
    simp only [rebalanceChunks, hlen2]
    rw [if_neg (by omega : ¬ chunks.length - 1 = 0)]
    rw [show chunks.length - 1 - 1 = chunks.length - 2 by omega, hlast2,
      if_neg (by omega : ¬ (chunks.getD (chunks.length - 2) 0 +
        chunks.getD (chunks.length - 1) 0 < d))]
  · have hre : rebalanceChunks chunks d = some chunks := by
      simp only [rebalanceChunks]
      rw [if_neg (by omega : ¬ chunks.length = 0), if_neg hlast]
    rw [hre, Option.some_bind]
    exact hre

/-- Witness for C7 (amended): chunks `[5,1,1]` with depth `2` rebalance to
`[5,2]`, and a second application leaves `[5,2]` unchanged. -/
theorem C7_rebalance_fixed_point_witness :
    (rebalanceChunks [5,1,1] 2).bind (fun c => rebalanceChunks c 2) =
      rebalanceChunks [5,1,1] 2 :=
  C7_rebalance_fixed_point [5,1,1] 2 (by decide) (by decide)

/-! ## Claim C8 -/

/-- Counterexample to C8 as stated: with zero windows the depth computation
(`np.max` of an empty array) raises instead of yielding `0`, and the
`window_statistic` planning pipeline propagates the error (`none`) instead of
producing an empty output. -/
theorem C8_counterexample :
    computeDepth [] [] = none ∧ windowStatisticPlan [4, 3, 3] [] [] = none := by
  exact ⟨rfl, rfl⟩

/-- Claim C8 (amended): for every chunk layout, an empty window set makes
`window_statistic` raise (maximum of an empty sequence is undefined); no
empty output is produced and no depth is defined. -/
theorem C8_empty_windows_error (chunks : List Nat) :
    windowStatisticPlan chunks [] [] = none := by
  simp [windowStatisticPlan, computeDepth, windowLengths]

/-! ## Claims C5 and C10 -/

/-- Claim C5: with at least two chunks, `moving_statistic` raises the
chunk-too-small error exactly when the minimum chunk length ignoring the
last chunk is smaller than `size`, and otherwise succeeds, handing the
derived windows to `window_statistic`.  The error does not depend on the
array length or step: the check precedes any windowed computation. -/
theorem C5_moving_statistic_check (len size step : Nat) (chunks : List Nat)
    (hchunks : 2 ≤ chunks.length) :
    ((∃ c ∈ chunks.dropLast, c < size) →
      moving_statistic len chunks size step =
        Except.error "Minimum chunk size must not be smaller than size.") ∧
    ((∀ c ∈ chunks.dropLast, size ≤ c) →
      moving_statistic len chunks size step =
        Except.ok (_get_windows 0 len size step)) := by
  have hdl : chunks.dropLast.length = chunks.length - 1 := List.length_dropLast _
  have hne : chunks.dropLast ≠ [] := by
    intro hcon
    rw [hcon] at hdl
    simp at hdl
    omega
  obtain ⟨m, hm⟩ : ∃ m, chunks.dropLast.min? = some m := by
    cases hm2 : chunks.dropLast.min? with
    | none => exact absurd (List.min?_eq_none_iff.mp hm2) hne
    | some m => exact ⟨m, rfl⟩
  have hmm : m ∈ chunks.dropLast ∧ ∀ a ∈ chunks.dropLast, m ≤ a := by
    rw [List.min?_eq_some_iff] at hm
    exact hm
    all_goals intros
    all_goals first
    | exact Nat.le_refl _
    | omega
  have hunfold : moving_statistic len chunks size step =
      (if m < size then
        Except.error "Minimum chunk size must not be smaller than size."
      else Except.ok (_get_windows 0 len size step)) := by
    unfold moving_statistic
    rw [if_pos (by omega : 1 < chunks.length), hm]
  constructor
  · rintro ⟨c, hc, hcsize⟩
    have hle := hmm.2 c hc
    rw [hunfold, if_pos (by omega)]
  · intro hall
    have hge := hall m hmm.1
    rw [hunfold, if_neg (by omega)]

/-- Witness for C5: chunks `[2,5,5]` with `size = 3` raise (interior chunk 2
is too small); chunks `[5,5,1]` with `size = 3` succeed (only the last chunk
is smaller than `size`). -/
theorem C5_moving_statistic_check_witness :
    moving_statistic 12 [2,5,5] 3 3 =
      Except.error "Minimum chunk size must not be smaller than size." ∧
    moving_statistic 11 [5,5,1] 3 3 = Except.ok (_get_windows 0 11 3 3) :=
  ⟨(C5_moving_statistic_check 12 3 3 [2,5,5] (by decide)).1 ⟨2, by decide, by decide⟩,
    (C5_moving_statistic_check 11 3 3 [5,5,1] (by decide)).2 (by decide)⟩

/-- Claim C10: with a single chunk, the minimum-chunk-size check applies to
that sole chunk rather than ignoring it as the last chunk: for a single
chunk of length `c < size` the chunk-too-small error is raised. -/
theorem C10_single_chunk_check (len c size step : Nat) (hc : c < size) :
    moving_statistic len [c] size step =
      Except.error "Minimum chunk size must not be smaller than size." := by
  unfold moving_statistic
  rw [if_neg (by simp : ¬ 1 < ([c] : List Nat).length)]
  rw [show ([c] : List Nat).min? = some c from rfl]
  exact if_pos hc

/-- Witness for C10: a single chunk of length 4 with `size = 5` raises. -/
theorem C10_single_chunk_check_witness :
    moving_statistic 4 [4] 5 5 =
      Except.error "Minimum chunk size must not be smaller than size." :=
  C10_single_chunk_check 4 4 5 5 (by decide)

/-! ## Claim C9 -/

/-- Claim C9: `blockwise_moving_stat` returns an empty result on the probe
call (absent/empty `block_info`), zero rows for a chunk with no assigned
windows, and otherwise exactly one result per window assigned to the chunk,
in window order, with the statistic applied to the slice
`[rel_start + depth : rel_start + depth + window_length]` of the block. -/
theorem C9_blockwise_moving_stat {α β : Type} (statistic : List α → β) (b : β)
    (relDataStarts lens rel_window_starts rel_window_stops offsets : List Nat)
    (depth : Nat) (x : List α) (c : Nat)
    (hrs : rel_window_starts = relDataStarts.map (· + depth))
    (hrt : rel_window_stops = List.zipWith (· + ·) rel_window_starts lens)
    (hlen : lens.length = relDataStarts.length) :
    blockwise_moving_stat statistic offsets rel_window_starts rel_window_stops x none
        = [] ∧
    (offsets.getD c 0 = offsets.getD (c + 1) 0 →
      blockwise_moving_stat statistic offsets rel_window_starts rel_window_stops x
        (some c) = []) ∧
    (offsets.getD c 0 ≤ offsets.getD (c + 1) 0 →
      offsets.getD (c + 1) 0 ≤ relDataStarts.length →
      (blockwise_moving_stat statistic offsets rel_window_starts rel_window_stops x
          (some c)).length = offsets.getD (c + 1) 0 - offsets.getD c 0 ∧
      (∀ k, k < offsets.getD (c + 1) 0 - offsets.getD c 0 →
        (blockwise_moving_stat statistic offsets rel_window_starts rel_window_stops x
            (some c)).getD k b =
          statistic ((x.drop (relDataStarts.getD (offsets.getD c 0 + k) 0 + depth)).take
            (lens.getD (offsets.getD c 0 + k) 0)))) := by
  subst hrt
  subst hrs
  refine ⟨rfl, ?_, ?_⟩
  · intro heq
    have heq2 : offsets[c]?.getD 0 = offsets[c + 1]?.getD 0 := by
      rw [← List.getD_eq_getElem?_getD, ← List.getD_eq_getElem?_getD]
      exact heq
    simp [blockwise_moving_stat]
    omega
  · intro hst ht
    have hlength : (blockwise_moving_stat statistic offsets
        (relDataStarts.map (· + depth))
        (List.zipWith (· + ·) (relDataStarts.map (· + depth)) lens) x
        (some c)).length = offsets.getD (c + 1) 0 - offsets.getD c 0 := by
      simp only [blockwise_moving_stat, List.length_map, List.length_zip,
        List.length_take, List.length_drop, List.length_zipWith]
      omega
    refine ⟨hlength, ?_⟩
    intro k hk
    have hk2 : k < (blockwise_moving_stat statistic offsets
        (relDataStarts.map (· + depth))
        (List.zipWith (· + ·) (relDataStarts.map (· + depth)) lens) x
        (some c)).length := by omega
    rw [List.getD_eq_getElem _ _ hk2]
    have hsk : offsets.getD c 0 + k < relDataStarts.length := by omega
    simp only [blockwise_moving_stat, List.getElem_map, List.getElem_zip,
      List.getElem_take, List.getElem_drop, List.getElem_zipWith]
    rw [List.getD_eq_getElem _ _ hsk,
      List.getD_eq_getElem _ _ (show offsets.getD c 0 + k < lens.length by omega)]
    congr 2
    omega

/-- Witness for C9: the first chunk of the end-to-end example (array
`[0,…,9]`, chunks `[4,3,3]`, windows `(0,3),(3,6),(6,9),(9,10)`, depth 3):
the probe call returns `[]`, chunk 0 gets two windows, and the first window's
statistic is the sum over slice `[3:6]` of the halo-extended block. -/
theorem C9_blockwise_moving_stat_witness :
    blockwise_moving_stat List.sum [0,2,3,4] [3,6,5,5] [6,9,8,6] [0,0,0,0,1,2,3] none
        = [] ∧
    (blockwise_moving_stat List.sum [0,2,3,4] [3,6,5,5] [6,9,8,6] [0,0,0,0,1,2,3]
        (some 0)).length = [0,2,3,4].getD 1 0 - [0,2,3,4].getD 0 0 ∧
    (blockwise_moving_stat List.sum [0,2,3,4] [3,6,5,5] [6,9,8,6] [0,0,0,0,1,2,3]
        (some 0)).getD 0 0 =
      List.sum (([0,0,0,0,1,2,3].drop
          ([0,3,2,2].getD ([0,2,3,4].getD 0 0 + 0) 0 + 3)).take
        ([3,3,3,1].getD ([0,2,3,4].getD 0 0 + 0) 0)) := by
  obtain ⟨h1, _, h3⟩ := C9_blockwise_moving_stat List.sum 0 [0,3,2,2] [3,3,3,1]
    [3,6,5,5] [6,9,8,6] [0,2,3,4] 3 [0,0,0,0,1,2,3] 0
    (by decide) (by decide) (by decide)
  obtain ⟨hlen, helem⟩ := h3 (by decide) (by decide)
  exact ⟨h1, hlen, helem 0 (by decide)⟩

end SgkitWindow
